import Mathlib

/-!
Verification of the NIST-style randomness test suite in `lab_5/NIST tests.py`
(`frequency_bitwise_test`, `the_same_consecutive_bits`, `max_consecutive_ones`,
`analyze_sequence`) against its natural-language specification.

Bit sequences are modelled as `List Char`, matching the Python code which
iterates over a string of characters.  Python floats are modelled with exact
arithmetic: `ℚ` where the computation is rational (the chi-square statistic)
and `ℝ` where square roots and special functions appear.  The library calls
`math.erfc` is kept abstract (a function parameter), while `mpmath.gammainc`
is pinned down by its documented mathematical meaning because claims depend
on which gamma function it is.  A Python run-time exception (ZeroDivisionError)
is modelled with `Except`.
-/

namespace NIST

/-- Errors a test can surface.  `zeroDivisionError` models the Python
`ZeroDivisionError` raised by `x / 0.0`; `invalidInput` models the spec's
`InvalidInput` condition (the source never raises it). -/
inductive PyError where
  | zeroDivisionError
  | invalidInput
deriving DecidableEq, Repr

/-! ## frequency_bitwise_test -/

/-- `1 if bit == '1' else -1` from the generator expression in
`frequency_bitwise_test`. -/
def bitValue (c : Char) : Int := if c = '1' then 1 else -1

/-- `total_sum = sum(1 if bit == '1' else -1 for bit in bit_sequence)`. -/
def total_sum (bit_sequence : List Char) : Int :=
  (bit_sequence.map bitValue).sum

/-- Embedding of `frequency_bitwise_test`.  `math.erfc` is abstract.
`S_obs = abs(total_sum) / math.sqrt(len(bit_sequence))` raises
`ZeroDivisionError` exactly when the divisor `math.sqrt(n)` is `0.0`,
i.e. when the string is empty. -/
noncomputable def frequency_bitwise_test (erfc : ℝ → ℝ)
    (bit_sequence : List Char) : Except PyError ℝ :=
  if bit_sequence.length = 0 then .error .zeroDivisionError
  else
    let S_obs : ℝ :=
      |((total_sum bit_sequence : ℤ) : ℝ)| / Real.sqrt bit_sequence.length
    .ok (erfc (S_obs / Real.sqrt 2))

/-! ## the_same_consecutive_bits -/

/-- `bits.count("1")`. -/
def onesCount (bits : List Char) : Nat := bits.countP (fun c => c = '1')

/-- The loop `for i in range(n-1): if bits[i] != bits[i+1]: V += 1`. -/
def switchCount : List Char → Nat
  | [] => 0
  | [_] => 0
  | a :: b :: rest => (if a ≠ b then 1 else 0) + switchCount (b :: rest)

open Classical in
/-- Embedding of `the_same_consecutive_bits`.  `a = bits.count("1") / n`
raises `ZeroDivisionError` when `n = 0`; the final `erfc(c/d)` raises
`ZeroDivisionError` when the divisor `d` is `0.0`. -/
noncomputable def the_same_consecutive_bits (erfc : ℝ → ℝ)
    (bits : List Char) : Except PyError ℝ :=
  let n := bits.length
  if n = 0 then .error .zeroDivisionError
  else
    let a : ℝ := (onesCount bits : ℝ) / (n : ℝ)
    if |a - 0.5| ≥ 2 / Real.sqrt n then .ok 0
    else
      let V : ℝ := (switchCount bits : ℝ)
      let c : ℝ := |V - 2 * n * a * (1 - a)|
      let d : ℝ := 2 * Real.sqrt (2 * n) * a * (1 - a)
      if d = 0 then .error .zeroDivisionError
      else .ok (erfc (c / d))

/-! ## max_consecutive_ones and analyze_sequence -/

/-- Loop body state of `max_consecutive_ones`: `(max_count, current_count)`. -/
def mcoStep (p : Nat × Nat) (bit : Char) : Nat × Nat :=
  if bit = '1' then (max p.1 (p.2 + 1), p.2 + 1) else (p.1, 0)

/-- Embedding of `max_consecutive_ones`. -/
def max_consecutive_ones (block : List Char) : Nat :=
  (block.foldl mcoStep (0, 0)).1

/-- Helper for `blocks`: peels off slices of 8 while the list is non-empty.
The `fuel` argument only bounds the recursion depth (any `fuel ≥ length`
gives the same result); it stands for the finite bound `len(sequence)` of
the Python `range`. -/
def blocksAux : Nat → List Char → List (List Char)
  | 0, _ => []
  | _ + 1, [] => []
  | fuel + 1, c :: cs =>
      (c :: cs).take 8 :: blocksAux fuel ((c :: cs).drop 8)

/-- `blocks = [sequence[i:i + block_size] for i in range(0, len(sequence), block_size)]`
with `block_size = 8`.  Python slicing keeps the final short chunk. -/
def blocks (sequence : List Char) : List (List Char) :=
  blocksAux sequence.length sequence

/-- The four bucket counters `V` of `analyze_sequence`. -/
structure Counts where
  v0 : Nat
  v1 : Nat
  v2 : Nat
  v3 : Nat
deriving DecidableEq, Repr

/-- The `match max_length` statement: bucket `≤1 / =2 / =3 / ≥4`. -/
def tally (V : Counts) (max_length : Nat) : Counts :=
  if max_length ≤ 1 then { V with v0 := V.v0 + 1 }
  else if max_length = 2 then { V with v1 := V.v1 + 1 }
  else if max_length = 3 then { V with v2 := V.v2 + 1 }
  else { V with v3 := V.v3 + 1 }

/-- The `for block in blocks` loop filling `V`. -/
def countsOf (sequence : List Char) : Counts :=
  (blocks sequence).foldl
    (fun V block => tally V (max_consecutive_ones block)) ⟨0, 0, 0, 0⟩

/-- Modelled from the spec: the constant `PI` is imported from `const.py`,
which is not part of the sources; the spec fixes it only as "a fixed vector
of 4 probabilities (one per RunCategory) ... for `M = 8`" that "must sum
to 1".  These are the NIST SP 800-22 reference probabilities for `M = 8`,
the values that reproduce the reference outputs listed in the spec. -/
def PI : Fin 4 → ℚ := ![0.2148, 0.3672, 0.2305, 0.1875]

/-- One summand of
`x_squared = sum((V[i] - 16 * PI[i]) ** 2 / (16 * PI[i]) for i in range(4))`. -/
def chiTerm (v : Nat) (p : ℚ) : ℚ := ((v : ℚ) - 16 * p) ^ 2 / (16 * p)

/-- `x_squared` of `analyze_sequence` (exact rational arithmetic). -/
def x_squared (sequence : List Char) : ℚ :=
  let V := countsOf sequence
  chiTerm V.v0 (PI 0) + chiTerm V.v1 (PI 1) +
    chiTerm V.v2 (PI 2) + chiTerm V.v3 (PI 3)

/-- `mpmath.gammainc(z, a)`, documented as the generalized incomplete gamma
`Γ(z, a, ∞) = ∫ t^(z-1) e^(-t) dt` over `(a, ∞)` — the UNregularized upper
incomplete gamma function. -/
noncomputable def gammainc (z a : ℝ) : ℝ :=
  ∫ t in Set.Ioi a, Real.exp (-t) * t ^ (z - 1)

/-- Embedding of `analyze_sequence`:
`p_value = mpmath.gammainc(1.5, x_squared / 2)`.  No operation in the body
can raise, so the result is always `ok`. -/
noncomputable def analyze_sequence (sequence : List Char) : Except PyError ℝ :=
  .ok (gammainc 1.5 ((x_squared sequence : ℝ) / 2))

/-! ## Spec-side formulations (written from the spec's wording, for
refinement-style comparison with the source embeddings). -/

/-- Spec wording for the chi-square statistic:
`χ² = Σ_i (V[i] − N·π[i])² / (N·π[i])` with `N` a parameter
("the number of full blocks"). -/
def chiSquareSpec (V : Counts) (N : ℚ) : ℚ :=
  ((V.v0 : ℚ) - N * PI 0) ^ 2 / (N * PI 0) +
    ((V.v1 : ℚ) - N * PI 1) ^ 2 / (N * PI 1) +
    ((V.v2 : ℚ) - N * PI 2) ^ 2 / (N * PI 2) +
    ((V.v3 : ℚ) - N * PI 3) ^ 2 / (N * PI 3)

/-- Spec wording for the runs statistic `V`: "the number of adjacent
positions i with bit[i] ≠ bit[i+1]". -/
def adjacentDiffCount (bits : List Char) : Nat :=
  ((bits.zip bits.tail).filter (fun p => p.1 ≠ p.2)).length

/-- Full bit inversion `'0' ↔ '1'` from the spec's invariance property. -/
def flipBit (c : Char) : Char :=
  if c = '0' then '1' else if c = '1' then '0' else c

/-- `invert(s)`: flip every bit. -/
def invert (s : List Char) : List Char := s.map flipBit

/-- A valid bit character, per the spec's BitSequence invariant. -/
def isBit (c : Char) : Prop := c = '0' ∨ c = '1'

instance (c : Char) : Decidable (isBit c) := by
  unfold isBit
  infer_instance

/-! ## Helper lemmas -/

lemma blocksAux_stable (fuel : ℕ) :
    ∀ s : List Char, s.length ≤ fuel →
      (blocksAux fuel s).length = (s.length + 7) / 8 ∧
        (blocksAux fuel s).flatten = s := by
  induction fuel with
  | zero =>
    intro s hs
    have hnil : s = [] := List.eq_nil_of_length_eq_zero (Nat.le_zero.mp hs)
    subst hnil
    simp [blocksAux]
  | succ n ih =>
    intro s hs
    match s with
    | [] => simp [blocksAux]
    | c :: cs =>
      have hdrop : ((c :: cs).drop 8).length ≤ n := by
        simp only [List.length_drop, List.length_cons]
        simp only [List.length_cons] at hs
        omega
      obtain ⟨ihlen, ihjoin⟩ := ih ((c :: cs).drop 8) hdrop
      constructor
      · simp only [blocksAux, List.length_cons, ihlen, List.length_drop]
        omega
      · simp only [blocksAux, List.flatten_cons, ihjoin]
        exact List.take_append_drop 8 (c :: cs)

lemma blocks_length (s : List Char) :
    (blocks s).length = (s.length + 7) / 8 :=
  (blocksAux_stable s.length s le_rfl).1

lemma blocks_join (s : List Char) : (blocks s).flatten = s :=
  (blocksAux_stable s.length s le_rfl).2

/-- `tally` increments the total of the four counters by exactly one. -/
lemma tally_total (V : Counts) (m : Nat) :
    (tally V m).v0 + (tally V m).v1 + (tally V m).v2 + (tally V m).v3 =
      V.v0 + V.v1 + V.v2 + V.v3 + 1 := by
  unfold tally
  split
  · dsimp only
    omega
  · split
    · dsimp only
      omega
    · split
      · dsimp only
        omega
      · dsimp only
        omega

lemma foldl_tally_total (bs : List (List Char)) :
    ∀ V : Counts,
      ((bs.foldl (fun V b => tally V (max_consecutive_ones b)) V).v0 +
        (bs.foldl (fun V b => tally V (max_consecutive_ones b)) V).v1 +
        (bs.foldl (fun V b => tally V (max_consecutive_ones b)) V).v2 +
        (bs.foldl (fun V b => tally V (max_consecutive_ones b)) V).v3) =
      V.v0 + V.v1 + V.v2 + V.v3 + bs.length := by
  induction bs with
  | nil => intro V; simp
  | cons b rest ih =>
    intro V
    simp only [List.foldl_cons, List.length_cons]
    rw [ih, tally_total]
    omega

/-! ## Claim theorems -/

/-- Claim C5, counterexample: the partition does NOT discard the trailing
remainder.  On the 9-bit sequence `000000001` the code produces 2 blocks,
not `9 / 8 = 1`, and the remainder bit lands in a bucket (both counted
blocks fall into bucket 0, so the bucket total is 2, not 1). -/
theorem blocks_truncation_counterexample :
    (blocks "000000001".toList).length ≠ "000000001".toList.length / 8 ∧
      (countsOf "000000001".toList).v0 + (countsOf "000000001".toList).v1 +
        (countsOf "000000001".toList).v2 + (countsOf "000000001".toList).v3 ≠
        "000000001".toList.length / 8 := by
  constructor
  · decide
  · decide

/-- Claim C5 (amended): the partition into blocks of size `M = 8` keeps the
trailing remainder: it produces `⌈n/8⌉` blocks whose concatenation is the
whole sequence (no bit is discarded); the final block is short when
`8 ∤ n` and is classified like any other block. -/
theorem blocks_keep_remainder (s : List Char) :
    (blocks s).length = (s.length + 7) / 8 ∧ (blocks s).flatten = s :=
  ⟨blocks_length s, blocks_join s⟩

/-- Claim C10: every block is classified into exactly one of the four
buckets, so the bucket counts always sum to the number of blocks produced
from the input sequence. -/
theorem bucket_counts_total (s : List Char) :
    (countsOf s).v0 + (countsOf s).v1 + (countsOf s).v2 + (countsOf s).v3 =
      (blocks s).length := by
  unfold countsOf
  rw [foldl_tally_total]
  dsimp only
  omega

/-- Claim C3, counterexample: the chi-square statistic does NOT use
`N = n div 8`.  On the 8-bit sequence `00000000` (one full block, so
`N = 1` per the claim) the code's statistic differs from
`Σ_i (V[i] − N·π[i])² / (N·π[i])` with `N = 1`, because the code hardcodes
`16` in place of `N`. -/
theorem chi_square_N_counterexample :
    x_squared "00000000".toList ≠
      chiSquareSpec (countsOf "00000000".toList)
        (("00000000".toList.length / 8 : ℕ) : ℚ) := by
  have h : countsOf "00000000".toList = ⟨1, 0, 0, 0⟩ := by decide
  have hl : ("00000000".toList.length / 8 : ℕ) = 1 := by decide
  rw [x_squared, h, hl]
  norm_num [chiSquareSpec, chiTerm, PI, h]

/-- Claim C3 (amended): the chi-square statistic is
`Σ_i (V[i] − N·π[i])² / (N·π[i])` with `N` hardcoded to `16` (the number
of full blocks of a 128-bit sequence) for every input, not the number of
full blocks of that input; the bucket counts `V` include any trailing
short block. -/
theorem chi_square_uses_hardcoded_16 (s : List Char) :
    x_squared s = chiSquareSpec (countsOf s) 16 := by
  rw [x_squared, chiSquareSpec]
  simp only [chiTerm]

/-- The value of `mpmath.gammainc` at `(1.5, 0)` is the complete
`Γ(3/2) = √π / 2`, because the function is not regularized. -/
lemma gammainc_three_halves_at_zero :
    gammainc 1.5 0 = Real.sqrt Real.pi / 2 := by
  unfold gammainc
  rw [← Real.Gamma_eq_integral (by norm_num : (0:ℝ) < 1.5)]
  have h15 : (1.5 : ℝ) = 1 / 2 + 1 := by norm_num
  rw [h15, Real.Gamma_add_one (by norm_num), Real.Gamma_one_half_eq]
  ring

lemma sqrt_pi_div_two_lt_one : Real.sqrt Real.pi / 2 < 1 := by
  have hπ : Real.pi < 4 := by linarith [Real.pi_lt_d2]
  have h4 : Real.sqrt 4 = 2 := by
    rw [show (4:ℝ) = 2 ^ 2 by norm_num, Real.sqrt_sq (by norm_num : (0:ℝ) ≤ 2)]
  have : Real.sqrt Real.pi < 2 := by
    calc Real.sqrt Real.pi < Real.sqrt 4 := by
          exact Real.sqrt_lt_sqrt (le_of_lt Real.pi_pos) hπ
      _ = 2 := h4
  linarith

/-- Claim C1: for every non-empty bit string, the frequency test returns
`erfc(S_obs / √2)` where `S` is the ±1 sum over the bits and
`S_obs = |S| / √n`. -/
theorem frequency_formula (erfc : ℝ → ℝ) (s : List Char)
    (h : 1 ≤ s.length) :
    frequency_bitwise_test erfc s =
      .ok (erfc (|((total_sum s : ℤ) : ℝ)| / Real.sqrt s.length /
        Real.sqrt 2)) := by
  unfold frequency_bitwise_test
  rw [if_neg (by omega)]

/-- Witness for `frequency_formula` at the concrete input `"1"` with the
identity standing in for `erfc`. -/
theorem frequency_formula_witness :
    frequency_bitwise_test (fun x => x) ['1'] =
      .ok (|((total_sum ['1'] : ℤ) : ℝ)| /
        Real.sqrt (['1'] : List Char).length / Real.sqrt 2) :=
  frequency_formula (fun x => x) ['1'] (by decide)

/-- Claim C4, counterexample: the gamma function the code feeds the
chi-square statistic into (`mpmath.gammainc`) does NOT satisfy
`Q(1.5, 0) = 1.0`: its value at `(1.5, 0)` is `Γ(3/2) = √π/2 ≈ 0.886`,
because it is the unregularized upper incomplete gamma function. -/
theorem gammainc_not_regularized : gammainc 1.5 0 ≠ 1 := by
  rw [gammainc_three_halves_at_zero]
  exact ne_of_lt sqrt_pi_div_two_lt_one

/-- Claim C4 (amended): the longest-run test converts its chi-square
statistic to a p-value via the UNregularized upper incomplete gamma
function `Γ(a, x) = ∫_x^∞ t^(a-1) e^(-t) dt` at `a = 1.5`, `x = χ²/2`;
the function used satisfies `Γ(1.5, 0) = √π/2`, so a sequence with
`χ² = 0` would receive p-value `√π/2 ≈ 0.886`, not `1.0`. -/
theorem longest_run_p_value_unregularized :
    (∀ s : List Char,
      analyze_sequence s = .ok (gammainc 1.5 ((x_squared s : ℝ) / 2))) ∧
      gammainc 1.5 0 = Real.sqrt Real.pi / 2 :=
  ⟨fun _ => rfl, gammainc_three_halves_at_zero⟩

/-! ## Branch-evaluation lemmas for `the_same_consecutive_bits` -/

/-- Abbreviation used only in lemma statements: the proportion of ones. -/
lemma runs_eval_guard_true (erfc : ℝ → ℝ) (s : List Char)
    (hn : s.length ≠ 0)
    (hge : |(onesCount s : ℝ) / (s.length : ℝ) - 0.5| ≥
      2 / Real.sqrt (s.length : ℝ)) :
    the_same_consecutive_bits erfc s = .ok 0 := by
  simp only [the_same_consecutive_bits]
  rw [if_neg hn, if_pos hge]

lemma runs_eval_d_zero (erfc : ℝ → ℝ) (s : List Char)
    (hn : s.length ≠ 0)
    (hlt : ¬ (|(onesCount s : ℝ) / (s.length : ℝ) - 0.5| ≥
      2 / Real.sqrt (s.length : ℝ)))
    (hd : 2 * Real.sqrt (2 * (s.length : ℝ)) *
        ((onesCount s : ℝ) / (s.length : ℝ)) *
        (1 - (onesCount s : ℝ) / (s.length : ℝ)) = 0) :
    the_same_consecutive_bits erfc s = .error .zeroDivisionError := by
  simp only [the_same_consecutive_bits]
  rw [if_neg hn, if_neg hlt, if_pos hd]

lemma runs_eval_formula (erfc : ℝ → ℝ) (s : List Char)
    (hn : s.length ≠ 0)
    (hlt : ¬ (|(onesCount s : ℝ) / (s.length : ℝ) - 0.5| ≥
      2 / Real.sqrt (s.length : ℝ)))
    (hd : 2 * Real.sqrt (2 * (s.length : ℝ)) *
        ((onesCount s : ℝ) / (s.length : ℝ)) *
        (1 - (onesCount s : ℝ) / (s.length : ℝ)) ≠ 0) :
    the_same_consecutive_bits erfc s =
      .ok (erfc (|(switchCount s : ℝ) -
          2 * (s.length : ℝ) * ((onesCount s : ℝ) / (s.length : ℝ)) *
            (1 - (onesCount s : ℝ) / (s.length : ℝ))| /
        (2 * Real.sqrt (2 * (s.length : ℝ)) *
          ((onesCount s : ℝ) / (s.length : ℝ)) *
          (1 - (onesCount s : ℝ) / (s.length : ℝ))))) := by
  simp only [the_same_consecutive_bits]
  rw [if_neg hn, if_neg hlt, if_neg hd]

/-- Claim C7: whenever `n ≥ 2` and the proportion of ones `a` satisfies
`|a − 0.5| ≥ 2/√n`, the runs test returns exactly `0`. -/
theorem runs_short_circuit (erfc : ℝ → ℝ) (s : List Char)
    (h2 : 2 ≤ s.length)
    (hge : |(onesCount s : ℝ) / (s.length : ℝ) - 0.5| ≥
      2 / Real.sqrt (s.length : ℝ)) :
    the_same_consecutive_bits erfc s = .ok 0 :=
  runs_eval_guard_true erfc s (by omega) hge

/-- Witness for `runs_short_circuit` at the all-ones string of length 16
(`a = 1`, `|a − 0.5| = 0.5 = 2/√16`). -/
theorem runs_short_circuit_witness :
    the_same_consecutive_bits (fun x => x) (List.replicate 16 '1') =
      .ok 0 := by
  apply runs_short_circuit
  · decide
  · have h1 : onesCount (List.replicate 16 '1') = 16 := by decide
    have h2 : (List.replicate 16 '1').length = 16 := by decide
    rw [h1, h2]
    have h4 : Real.sqrt ((16 : ℕ) : ℝ) = 4 := by
      rw [show (((16 : ℕ) : ℝ)) = 4 ^ 2 by norm_num,
        Real.sqrt_sq (by norm_num : (0:ℝ) ≤ 4)]
    rw [h4]
    norm_num
    rw [abs_of_nonneg (by norm_num : (0:ℝ) ≤ 1 / 2)]

/-! ## Inversion invariance of the frequency test -/

lemma bitValue_flipBit {c : Char} (hc : isBit c) :
    bitValue (flipBit c) = - bitValue c := by
  rcases hc with h | h <;> subst h <;> decide

lemma total_sum_invert (s : List Char) (hv : ∀ c ∈ s, isBit c) :
    total_sum (invert s) = - total_sum s := by
  induction s with
  | nil => rfl
  | cons c cs ih =>
    have hc : isBit c := hv c (List.mem_cons_self c cs)
    have hcs : ∀ x ∈ cs, isBit x := fun x hx => hv x (List.mem_cons_of_mem c hx)
    simp only [invert, total_sum, List.map_cons, List.sum_cons] at *
    rw [bitValue_flipBit hc, ih hcs]
    ring

/-- Claim C8: the frequency test is invariant under full bit inversion,
for every valid non-empty sequence. -/
theorem frequency_inversion_invariant (erfc : ℝ → ℝ) (s : List Char)
    (_hne : s ≠ []) (hv : ∀ c ∈ s, isBit c) :
    frequency_bitwise_test erfc (invert s) =
      frequency_bitwise_test erfc s := by
  unfold frequency_bitwise_test
  have hlen : (invert s).length = s.length := List.length_map s flipBit
  rw [hlen, total_sum_invert s hv]
  push_cast
  rw [abs_neg]

/-- Witness for `frequency_inversion_invariant` at `"01"`. -/
theorem frequency_inversion_invariant_witness :
    frequency_bitwise_test (fun x => x) (invert ['0', '1']) =
      frequency_bitwise_test (fun x => x) ['0', '1'] :=
  frequency_inversion_invariant (fun x => x) ['0', '1'] (by decide)
    (by decide)

/-! ## Runs test formula (claim C2) -/

lemma switchCount_eq_adjacentDiffCount (s : List Char) :
    switchCount s = adjacentDiffCount s := by
  induction s with
  | nil => rfl
  | cons a t ih =>
    cases t with
    | nil => rfl
    | cons b r =>
      have step : adjacentDiffCount (a :: b :: r) =
          (if a ≠ b then 1 else 0) + adjacentDiffCount (b :: r) := by
        by_cases hab : a = b
        · subst hab
          simp [adjacentDiffCount]
        · simp only [adjacentDiffCount, List.tail_cons, List.zip_cons_cons,
            List.filter_cons]
          simp [hab]
          omega
      rw [switchCount, step, ih]

/-- Claim C2, counterexample: on the string `"11"` (n = 2, proportion of
ones a = 1) the precondition `|a − 0.5| < 2/√n` holds, yet the runs test
does not return `erfc(c/d)`: the divisor `d = 2·√(2n)·a·(1−a)` is `0`
and the division raises `ZeroDivisionError`. -/
theorem runs_formula_counterexample :
    2 ≤ (['1', '1'] : List Char).length ∧
      |(onesCount ['1', '1'] : ℝ) / ((['1', '1'] : List Char).length : ℝ) -
          0.5| < 2 / Real.sqrt ((['1', '1'] : List Char).length : ℝ) ∧
      the_same_consecutive_bits (fun _ => 0) ['1', '1'] =
        .error .zeroDivisionError := by
  have h1 : onesCount ['1', '1'] = 2 := by decide
  have h2 : (['1', '1'] : List Char).length = 2 := by decide
  have hsqrt2 : (1 : ℝ) ≤ Real.sqrt 2 := by
    rw [show (1:ℝ) = Real.sqrt 1 by simp]
    exact Real.sqrt_le_sqrt (by norm_num)
  have hlt : |(onesCount ['1', '1'] : ℝ) /
        ((['1', '1'] : List Char).length : ℝ) - 0.5| <
      2 / Real.sqrt ((['1', '1'] : List Char).length : ℝ) := by
    rw [h1, h2]
    push_cast
    rw [show |(2:ℝ) / 2 - 0.5| = 0.5 by rw [show (2:ℝ)/2 - 0.5 = 0.5 by norm_num]; rw [abs_of_nonneg]; norm_num]
    rw [Real.div_sqrt]
    linarith
  refine ⟨by decide, hlt, ?_⟩
  apply runs_eval_d_zero
  · rw [h2]; omega
  · rw [not_le]; exact hlt
  · rw [h1, h2]
    push_cast
    norm_num

/-- Claim C2 (amended): for every bit string of length `n ≥ 2` whose
proportion of ones `a` satisfies `|a − 0.5| < 2/√n` AND which contains
both a one and a zero (`0 < count of ones < n`, so that the divisor
`d = 2·√(2n)·a·(1−a)` is nonzero), the runs test returns `erfc(c/d)`
with `V` the number of adjacent positions whose bits differ,
`c = |V − 2·n·a·(1−a)|` and `d = 2·√(2n)·a·(1−a)`.  (On an all-equal
string that passes the precondition, `d = 0` and the code raises
`ZeroDivisionError` instead.) -/
theorem runs_formula (erfc : ℝ → ℝ) (s : List Char)
    (h2 : 2 ≤ s.length)
    (hbal : |(onesCount s : ℝ) / (s.length : ℝ) - 0.5| <
      2 / Real.sqrt (s.length : ℝ))
    (hpos : 0 < onesCount s) (hlt : onesCount s < s.length) :
    the_same_consecutive_bits erfc s =
      .ok (erfc (|(adjacentDiffCount s : ℝ) -
          2 * (s.length : ℝ) * ((onesCount s : ℝ) / (s.length : ℝ)) *
            (1 - (onesCount s : ℝ) / (s.length : ℝ))| /
        (2 * Real.sqrt (2 * (s.length : ℝ)) *
          ((onesCount s : ℝ) / (s.length : ℝ)) *
          (1 - (onesCount s : ℝ) / (s.length : ℝ))))) := by
  have hn : s.length ≠ 0 := by omega
  have hnR : (0:ℝ) < (s.length : ℝ) := by
    exact_mod_cast Nat.pos_of_ne_zero hn
  have ha_pos : (0:ℝ) < (onesCount s : ℝ) / (s.length : ℝ) := by
    apply div_pos _ hnR
    exact_mod_cast hpos
  have ha_lt : (onesCount s : ℝ) / (s.length : ℝ) < 1 := by
    rw [div_lt_one hnR]
    exact_mod_cast hlt
  have hd : 2 * Real.sqrt (2 * (s.length : ℝ)) *
      ((onesCount s : ℝ) / (s.length : ℝ)) *
      (1 - (onesCount s : ℝ) / (s.length : ℝ)) ≠ 0 := by
    have hs : 0 < Real.sqrt (2 * (s.length : ℝ)) :=
      Real.sqrt_pos.mpr (by linarith)
    exact ne_of_gt
      (mul_pos (mul_pos (mul_pos two_pos hs) ha_pos) (by linarith))
  rw [runs_eval_formula erfc s hn (not_le.mpr hbal) hd,
    switchCount_eq_adjacentDiffCount]

/-- Witness for `runs_formula` at `"0110"` (n = 4, a = 1/2). -/
theorem runs_formula_witness :
    the_same_consecutive_bits (fun x => x) ['0', '1', '1', '0'] =
      .ok (|(adjacentDiffCount ['0', '1', '1', '0'] : ℝ) -
          2 * ((['0', '1', '1', '0'] : List Char).length : ℝ) *
            ((onesCount ['0', '1', '1', '0'] : ℝ) /
              ((['0', '1', '1', '0'] : List Char).length : ℝ)) *
            (1 - (onesCount ['0', '1', '1', '0'] : ℝ) /
              ((['0', '1', '1', '0'] : List Char).length : ℝ))| /
        (2 * Real.sqrt (2 * ((['0', '1', '1', '0'] : List Char).length : ℝ)) *
          ((onesCount ['0', '1', '1', '0'] : ℝ) /
            ((['0', '1', '1', '0'] : List Char).length : ℝ)) *
          (1 - (onesCount ['0', '1', '1', '0'] : ℝ) /
            ((['0', '1', '1', '0'] : List Char).length : ℝ)))) := by
  apply runs_formula
  · decide
  · have h1 : onesCount ['0', '1', '1', '0'] = 2 := by decide
    have h2 : (['0', '1', '1', '0'] : List Char).length = 4 := by decide
    rw [h1, h2]
    push_cast
    rw [show |(2:ℝ) / 4 - 0.5| = 0 by rw [show (2:ℝ)/4 - 0.5 = 0 by norm_num]; exact abs_zero]
    have h4 : Real.sqrt (4 : ℝ) = 2 := by
      rw [show (4:ℝ) = 2 ^ 2 by norm_num, Real.sqrt_sq (by norm_num : (0:ℝ) ≤ 2)]
    rw [h4]
    norm_num
  · decide
  · decide

/-! ## Error behaviour on short inputs (claim C6) -/

lemma freq_empty_error (erfc : ℝ → ℝ) :
    frequency_bitwise_test erfc [] = .error .zeroDivisionError := by
  simp [frequency_bitwise_test]

lemma runs_short_error (erfc : ℝ → ℝ) (s : List Char) (h : s.length < 2) :
    the_same_consecutive_bits erfc s = .error .zeroDivisionError := by
  match s, h with
  | [], _ => simp [the_same_consecutive_bits]
  | [c], _ =>
    by_cases hc : c = '1'
    · subst hc
      apply runs_eval_d_zero
      · decide
      · have h1 : onesCount ['1'] = 1 := by decide
        have h2 : ((['1'] : List Char).length : ℝ) = 1 := by norm_num
        rw [h1, h2, Real.sqrt_one]
        push_cast
        rw [show |(1:ℝ) / 1 - 0.5| = 0.5 by
          rw [show (1:ℝ)/1 - 0.5 = 0.5 by norm_num]
          rw [abs_of_nonneg]
          norm_num]
        norm_num
      · have h1 : onesCount ['1'] = 1 := by decide
        rw [h1]
        push_cast
        norm_num
    · have h1 : onesCount [c] = 0 := by
        simp [onesCount, List.countP_cons, hc]
      apply runs_eval_d_zero
      · simp
      · have h2 : (([c] : List Char).length : ℝ) = 1 := by norm_num
        rw [h1, h2, Real.sqrt_one]
        push_cast
        rw [show |(0:ℝ) / 1 - 0.5| = 0.5 by
          rw [show (0:ℝ)/1 - 0.5 = -0.5 by norm_num]
          rw [abs_of_nonpos] <;> norm_num]
        norm_num
      · rw [h1]
        push_cast
        norm_num

/-- Claim C6, counterexample: at the claim's own inputs none of the three
tests fails with `InvalidInput`.  The frequency test on the empty string
and the runs test on `"0"` (length 1 < 2) die with `ZeroDivisionError`,
and the longest-run test on `"0"` (length 1 < 8) returns a p-value with
no error at all. -/
theorem invalid_input_counterexample :
    frequency_bitwise_test (fun x => x) [] = .error .zeroDivisionError ∧
      the_same_consecutive_bits (fun x => x) ['0'] =
        .error .zeroDivisionError ∧
      analyze_sequence ['0'] =
        .ok (gammainc 1.5 ((x_squared ['0'] : ℝ) / 2)) ∧
      (Except.error PyError.zeroDivisionError : Except PyError ℝ) ≠
        .error .invalidInput := by
  refine ⟨freq_empty_error _, runs_short_error _ _ (by decide), rfl, by simp⟩

/-- Claim C6 (amended): none of the three tests validates its input.  The
frequency test on the empty string and the runs test on any string of
length `< 2` crash with `ZeroDivisionError` (not a validated
`InvalidInput` failure), and the longest-run test accepts any string
shorter than one full block, returning a p-value normally. -/
theorem no_input_validation (erfc : ℝ → ℝ) (s : List Char) :
    frequency_bitwise_test erfc [] = .error .zeroDivisionError ∧
      (s.length < 2 →
        the_same_consecutive_bits erfc s = .error .zeroDivisionError) ∧
      (s.length < 8 →
        analyze_sequence s = .ok (gammainc 1.5 ((x_squared s : ℝ) / 2))) :=
  ⟨freq_empty_error erfc, runs_short_error erfc s, fun _ => rfl⟩

/-- Witness for `no_input_validation` at `erfc = id`, `s = "0"`. -/
theorem no_input_validation_witness :
    the_same_consecutive_bits (fun x => x) ['0'] =
      .error .zeroDivisionError :=
  (no_input_validation (fun x => x) ['0']).2.1 (by decide)

/-! ## p-values lie in [0, 1] (claim C9) -/

lemma PI_entries_pos : 0 < PI 0 ∧ 0 < PI 1 ∧ 0 < PI 2 ∧ 0 < PI 3 := by
  refine ⟨?_, ?_, ?_, ?_⟩ <;> norm_num [PI]

lemma chiTerm_nonneg (v : Nat) (p : ℚ) (hp : 0 < p) : 0 ≤ chiTerm v p := by
  unfold chiTerm
  apply div_nonneg (sq_nonneg _)
  positivity

lemma x_squared_nonneg (s : List Char) : 0 ≤ x_squared s := by
  obtain ⟨h0, h1, h2, h3⟩ := PI_entries_pos
  rw [x_squared]
  have := chiTerm_nonneg (countsOf s).v0 (PI 0) h0
  have := chiTerm_nonneg (countsOf s).v1 (PI 1) h1
  have := chiTerm_nonneg (countsOf s).v2 (PI 2) h2
  have := chiTerm_nonneg (countsOf s).v3 (PI 3) h3
  linarith

lemma gammainc_nonneg {x : ℝ} (hx : 0 ≤ x) : 0 ≤ gammainc 1.5 x := by
  unfold gammainc
  apply MeasureTheory.setIntegral_nonneg measurableSet_Ioi
  intro t ht
  exact mul_nonneg (Real.exp_nonneg _)
    (Real.rpow_nonneg (le_trans hx (le_of_lt ht)) _)

lemma gammainc_mono_zero {x : ℝ} (hx : 0 ≤ x) :
    gammainc 1.5 x ≤ gammainc 1.5 0 := by
  unfold gammainc
  apply MeasureTheory.setIntegral_mono_set
  · exact Real.GammaIntegral_convergent (by norm_num : (0:ℝ) < 1.5)
  · filter_upwards [MeasureTheory.ae_restrict_mem measurableSet_Ioi] with t ht
    exact mul_nonneg (Real.exp_nonneg _) (Real.rpow_nonneg (le_of_lt ht) _)
  · exact HasSubset.Subset.eventuallyLE (Set.Ioi_subset_Ioi hx)

lemma gammainc_le_one {x : ℝ} (hx : 0 ≤ x) : gammainc 1.5 x ≤ 1 := by
  calc gammainc 1.5 x ≤ gammainc 1.5 0 := gammainc_mono_zero hx
    _ = Real.sqrt Real.pi / 2 := gammainc_three_halves_at_zero
    _ ≤ 1 := le_of_lt sqrt_pi_div_two_lt_one

/-- Claim C9: assuming the `erfc` library function maps nonnegative
arguments into [0, 1] (a property of the true complementary error
function), every p-value any of the three tests returns lies in [0, 1]. -/
theorem p_value_in_unit (erfc : ℝ → ℝ)
    (herfc : ∀ x : ℝ, 0 ≤ x → 0 ≤ erfc x ∧ erfc x ≤ 1)
    (s : List Char) (p : ℝ) :
    (frequency_bitwise_test erfc s = .ok p → 0 ≤ p ∧ p ≤ 1) ∧
      (the_same_consecutive_bits erfc s = .ok p → 0 ≤ p ∧ p ≤ 1) ∧
      (analyze_sequence s = .ok p → 0 ≤ p ∧ p ≤ 1) := by
  refine ⟨?_, ?_, ?_⟩
  · intro hok
    unfold frequency_bitwise_test at hok
    by_cases h0 : s.length = 0
    · rw [if_pos h0] at hok
      cases hok
    · rw [if_neg h0] at hok
      simp only [Except.ok.injEq] at hok
      rw [← hok]
      apply herfc
      positivity
  · intro hok
    by_cases h0 : s.length = 0
    · simp only [the_same_consecutive_bits] at hok
      rw [if_pos h0] at hok
      cases hok
    · by_cases hg : |(onesCount s : ℝ) / (s.length : ℝ) - 0.5| ≥
          2 / Real.sqrt (s.length : ℝ)
      · rw [runs_eval_guard_true erfc s h0 hg] at hok
        simp only [Except.ok.injEq] at hok
        rw [← hok]
        norm_num
      · by_cases hd : 2 * Real.sqrt (2 * (s.length : ℝ)) *
            ((onesCount s : ℝ) / (s.length : ℝ)) *
            (1 - (onesCount s : ℝ) / (s.length : ℝ)) = 0
        · rw [runs_eval_d_zero erfc s h0 hg hd] at hok
          cases hok
        · rw [runs_eval_formula erfc s h0 hg hd] at hok
          simp only [Except.ok.injEq] at hok
          rw [← hok]
          apply herfc
          have hnR : (0:ℝ) < (s.length : ℝ) := by
            exact_mod_cast Nat.pos_of_ne_zero h0
          have ha0 : (0:ℝ) ≤ (onesCount s : ℝ) / (s.length : ℝ) :=
            div_nonneg (Nat.cast_nonneg _) (le_of_lt hnR)
          have ha1 : (onesCount s : ℝ) / (s.length : ℝ) ≤ 1 := by
            rw [div_le_one hnR]
            exact_mod_cast List.countP_le_length _
          have hd0 : 0 ≤ 2 * Real.sqrt (2 * (s.length : ℝ)) *
              ((onesCount s : ℝ) / (s.length : ℝ)) *
              (1 - (onesCount s : ℝ) / (s.length : ℝ)) := by
            have := Real.sqrt_nonneg (2 * (s.length : ℝ))
            have h1a : (0:ℝ) ≤ 1 - (onesCount s : ℝ) / (s.length : ℝ) := by
              linarith
            positivity
          exact div_nonneg (abs_nonneg _) hd0
  · intro hok
    simp only [analyze_sequence, Except.ok.injEq] at hok
    rw [← hok]
    have hx : (0:ℝ) ≤ (x_squared s : ℝ) / 2 := by
      have : (0:ℝ) ≤ ((x_squared s : ℚ) : ℝ) := by
        exact_mod_cast x_squared_nonneg s
      linarith
    exact ⟨gammainc_nonneg hx, gammainc_le_one hx⟩

/-- Witness for `p_value_in_unit`: the constant function `x ↦ 1/2` is a
bounded stand-in for `erfc`; the frequency test on `"1"` then returns the
p-value `1/2`, which the theorem places in [0, 1]. -/
theorem p_value_in_unit_witness : (0:ℝ) ≤ 1 / 2 ∧ (1 / 2 : ℝ) ≤ 1 :=
  (p_value_in_unit (fun _ => 1 / 2) (fun x _ => by norm_num) ['1']
      (1 / 2)).1 (by simp [frequency_bitwise_test])

end NIST
